import Mathlib

/-!
A verification development for a generic skip-list container
(src/include/node.h, src/include/skip_list.h).

Representation.  The C++ structure is a head sentinel plus nodes linked by
shared pointers, one forward link per level 0..node.level; every node is on
lane 0 and the lane-i list is the subsequence of level-0 nodes whose level
is at least i.  We embed a list state as the level-0 sequence of nodes
(value and level), together with the two scalar counters the class keeps
(current_level and num_elements).  The lane-i successor of a position is
then the first later node whose level is at least i, which is exactly the
pointer the C++ code maintains; the head sentinel is the position before
the whole sequence.  All loops of the source are translated as fuel-based
structural recursions (the fuel is an upper bound on the loop's iteration
count) so that every definition evaluates by kernel reduction.
-/

namespace SkipListVerif

/-- A node of the skip list (node.h): the stored value and the node's level,
the highest lane index it participates in; the C++ node owns forward links
for lanes 0..level. -/
structure Node (T : Type) where
  value : T
  level : Nat
  deriving DecidableEq, Repr

/-- MAX_LEVEL of skip_list.h line 26. -/
def MAX_LEVEL : Nat := 16

/-- The skip-list state: the level-0 sequence of nodes after the head
sentinel, and the two scalar fields of the C++ class. -/
structure SkipList (T : Type) where
  nodes : List (Node T)
  current_level : Nat
  num_elements : Nat
  deriving DecidableEq, Repr

variable {T : Type} [LinearOrder T]

/-- The element sequence obtained by forward iteration from begin() to
end(): follow level-0 links from the head. -/
def SkipList.values (l : SkipList T) : List T :=
  l.nodes.map Node.value

/-- size() returns num_elements. -/
def SkipList.size (l : SkipList T) : Nat :=
  l.num_elements

/-- empty() returns num_elements == 0. -/
def SkipList.empty (l : SkipList T) : Bool :=
  l.num_elements == 0

/-- The default-constructed skip list: fresh head sentinel (no successors),
current_level = 0, num_elements = 0. -/
def emptySkipList : SkipList T :=
  { nodes := [], current_level := 0, num_elements := 0 }

/-- One level of the predecessor scan, the inner while loop shared by
insert, contains and erase: while the lane-i successor of the current
position exists and its value is less than the target, advance to it.
The position is the suffix of level-0 nodes after the current node; the
lane-i successor is the first node of the suffix whose level is at least i.
The fuel argument bounds the iteration count (the loop consumes at least
one node of the suffix per iteration). -/
def scanLoop (i : Nat) (v : T) : Nat → List (Node T) → List (Node T)
  | 0, s => s
  | fuel + 1, s =>
    match s.dropWhile (fun n => decide (n.level < i)) with
    | [] => s
    | n :: rest => if n.value < v then scanLoop i v fuel rest else s

/-- The inner while loop at lane i, with enough fuel to run to completion. -/
def scanLevel (i : Nat) (v : T) (s : List (Node T)) : List (Node T) :=
  scanLoop i v s.length s

/-- The outer descent of the predecessor scan: run the lane-k while loop,
then continue one level lower, down to and including lane 0.  Returns the
suffix of level-0 nodes after the final level-0 predecessor. -/
def scanFrom (v : T) (s : List (Node T)) : Nat → List (Node T)
  | 0 => scanLevel 0 v s
  | i + 1 => scanFrom v (scanLevel (i + 1) v s) i

/-- The predecessor scan of the list, from the head sentinel at
current_level down to lane 0 (skip_list.h lines 502-507, 542-546,
560-570). -/
def scan (l : SkipList T) (v : T) : List (Node T) :=
  scanFrom v l.nodes l.current_level

/-- contains (skip_list.h lines 539-551): run the scan; found iff the node
after the final level-0 predecessor exists and its value equals the
target. -/
def SkipList.contains (l : SkipList T) (v : T) : Bool :=
  match (scan l v).head? with
  | some n => decide (n.value = v)
  | none => false

/-- insert (skip_list.h lines 494-536).  Run the scan; if the node after
the level-0 predecessor already holds the value, return unchanged
(duplicates rejected).  Otherwise splice a node of the drawn level lvl in
at the scan position at every lane 0..lvl (in this representation the
splice is the insertion of the node into the level-0 sequence), raise
current_level to lvl when lvl exceeds it, and increment num_elements.
The level, drawn by get_random_level in the source, is a parameter. -/
def SkipList.insert (l : SkipList T) (v : T) (lvl : Nat) : SkipList T :=
  let s := scan l v
  if s.head?.map Node.value = some v then l
  else
    { nodes := l.nodes.take (l.nodes.length - s.length) ++ ⟨v, lvl⟩ :: s
      current_level := if lvl > l.current_level then lvl else l.current_level
      num_elements := l.num_elements + 1 }

/-- Is the head sentinel's lane-i link null?  It is null exactly when no
node participates in lane i, i.e. every node's level is below i. -/
def headNextNull (nodes : List (Node T)) (i : Nat) : Bool :=
  nodes.all (fun n => decide (n.level < i))

/-- The post-erase shrink loop (skip_list.h lines 586-588): while
current_level > 0 and the head's lane link at current_level is null,
decrement current_level. -/
def shrinkLevel (nodes : List (Node T)) : Nat → Nat
  | 0 => 0
  | i + 1 => if headNextNull nodes (i + 1) then shrinkLevel nodes i else i + 1

/-- erase (skip_list.h lines 554-593).  Run the scan; the candidate is the
node after the final level-0 predecessor.  If it exists and holds the
value, unlink it at every lane it occupies (here: remove it from the
sequence), decrement num_elements and shrink current_level; otherwise
report false with no mutation. -/
def SkipList.erase (l : SkipList T) (v : T) : SkipList T × Bool :=
  let s := scan l v
  if s.head?.map Node.value = some v then
    let nodes' := l.nodes.take (l.nodes.length - s.length) ++ s.tail
    ({ nodes := nodes'
       current_level := shrinkLevel nodes' l.current_level
       num_elements := l.num_elements - 1 }, true)
  else (l, false)

/-- The lockstep walk of operator== (skip_list.h lines 636-644): advance
both iterators while both are valid; report false at the first pair of
unequal values. -/
def eqWalk [DecidableEq U] : List U → List U → Bool
  | x :: xs, y :: ys => if x = y then eqWalk xs ys else false
  | _, _ => true

/-- operator== (skip_list.h lines 631-645): unequal num_elements means not
equal; otherwise walk both value sequences in lockstep. -/
def skipListEq (l1 l2 : SkipList T) : Bool :=
  if l1.num_elements ≠ l2.num_elements then false
  else eqWalk l1.values l2.values

/-- The lockstep walk of operator< (skip_list.h lines 654-663): at the
first differing pair the smaller value decides; after the loop, less iff
the left iterator is exhausted and the right is not. -/
def ltWalk : List T → List T → Bool
  | x :: xs, y :: ys => if x < y then true else if y < x then false else ltWalk xs ys
  | [], _ :: _ => true
  | _, [] => false

/-- operator< (skip_list.h lines 648-664). -/
def skipListLt (l1 l2 : SkipList T) : Bool :=
  ltWalk l1.values l2.values

/-- operator> (skip_list.h lines 667-669): other < this. -/
def skipListGt (l1 l2 : SkipList T) : Bool :=
  skipListLt l2 l1

/-- operator<= (skip_list.h lines 672-674): not (this > other). -/
def skipListLe (l1 l2 : SkipList T) : Bool :=
  !(skipListGt l1 l2)

/-- operator>= (skip_list.h lines 677-679): not (this < other). -/
def skipListGe (l1 l2 : SkipList T) : Bool :=
  !(skipListLt l1 l2)

/-- Move construction (skip_list.h lines 458-466): the destination takes
the head sentinel and the scalar counters; the source is reset to a fresh
empty instance.  Returns (destination, moved-from source). -/
def moveConstruct (l : SkipList T) : SkipList T × SkipList T :=
  ({ nodes := l.nodes, current_level := l.current_level, num_elements := l.num_elements },
   { nodes := [], current_level := 0, num_elements := 0 })

/-- Move assignment onto dst from src, for distinct objects (skip_list.h
lines 602-617): dst drops its head and takes src's head and counters; src
is reset to a fresh empty instance.  Returns (destination, moved-from
source). -/
def moveAssign (dst src : SkipList T) : SkipList T × SkipList T :=
  ({ nodes := src.nodes, current_level := src.current_level, num_elements := src.num_elements },
   { nodes := [], current_level := 0, num_elements := 0 })

/-- An iterator is the suffix of level-0 nodes from its position; the empty
suffix is the null/end() iterator. -/
def iterNext : List (Node T) → List (Node T)
  | [] => []
  | _ :: rest => rest

/-- const_iterator operator++ (skip_list.h lines 212-217): same body as the
mutable iterator's. -/
def citerNext : List (Node T) → List (Node T)
  | [] => []
  | _ :: rest => rest

/-- iterator operator* (skip_list.h lines 80-86): none models the thrown
std::out_of_range on a null iterator. -/
def iterDeref : List (Node T) → Option T
  | [] => none
  | n :: _ => some n.value

/-- const_iterator operator* (skip_list.h lines 187-193). -/
def citerDeref : List (Node T) → Option T
  | [] => none
  | n :: _ => some n.value

/-- The loop of get_random_level (skip_list.h lines 470-476): starting at
level 1, while the drawn sample is below 0.25 and the level is below
MAX_LEVEL, add a level.  The draw stream dis gives the k-th sample; the
fuel bounds the iteration count (at most MAX_LEVEL - 1 iterations can
happen, so fuel MAX_LEVEL never runs out before the condition fails). -/
def grlLoop (dis : Nat → ℚ) : Nat → Nat → Nat → Nat
  | 0, _, level => level
  | fuel + 1, k, level =>
    if dis k < 1/4 ∧ level < MAX_LEVEL then grlLoop dis fuel (k + 1) (level + 1)
    else level

/-- get_random_level (skip_list.h lines 470-476), over an explicit stream
of uniform samples. -/
def get_random_level (dis : Nat → ℚ) : Nat :=
  grlLoop dis MAX_LEVEL 0 1

/-- A mutating operation on the container: insert with the level its call
to get_random_level drew, or erase. -/
inductive Op (T : Type) where
  | insert (v : T) (lvl : Nat)
  | erase (v : T)
  deriving DecidableEq, Repr

/-- Apply one operation to a state. -/
def applyOp (l : SkipList T) : Op T → SkipList T
  | .insert v lvl => l.insert v lvl
  | .erase v => (l.erase v).1

/-- Run a sequence of operations from the default-constructed list. -/
def run (ops : List (Op T)) : SkipList T :=
  ops.foldl applyOp emptySkipList

/-- A state is reachable when some operation sequence produces it from the
default-constructed list. -/
def Reachable (l : SkipList T) : Prop :=
  ∃ ops : List (Op T), run ops = l

/-- Run a sequence of insertions (value and drawn level) from the
default-constructed list. -/
def runInserts (vs : List (T × Nat)) : SkipList T :=
  vs.foldl (fun l p => l.insert p.1 p.2) emptySkipList

/-- The order of nodes the sorted-structure invariant speaks about. -/
def nodeLt (a b : Node T) : Prop :=
  a.value < b.value

/-- The maximum level of any node of the sequence, 0 for the empty
sequence. -/
def maxLevel : List (Node T) → Nat
  | [] => 0
  | n :: rest => max n.level (maxLevel rest)

/-- The representation invariant every reachable state satisfies: the
level-0 sequence is strictly increasing, num_elements counts the nodes,
and current_level is the maximum node level. -/
def Inv (l : SkipList T) : Prop :=
  l.nodes.Pairwise nodeLt ∧ l.num_elements = l.nodes.length ∧
    l.current_level = maxLevel l.nodes

/-! ### Library-style helpers about dropWhile -/

theorem dropWhile_head_false {α : Type} {p : α → Bool} {l : List α} {a : α} {as : List α}
    (h : l.dropWhile p = a :: as) : p a = false := by
  induction l with
  | nil => simp at h
  | cons x xs ih =>
    rw [List.dropWhile_cons] at h
    split at h
    · exact ih h
    · next hx =>
      cases h
      simpa using hx

theorem dropWhile_append_all {α : Type} {p : α → Bool} {l₁ l₂ : List α}
    (h : ∀ x ∈ l₁, p x = true) : (l₁ ++ l₂).dropWhile p = l₂.dropWhile p := by
  induction l₁ with
  | nil => rfl
  | cons x xs ih =>
    rw [List.cons_append, List.dropWhile_cons_of_pos (h x (by simp))]
    exact ih (fun y hy => h y (by simp [hy]))

theorem length_split_dropWhile {α : Type} (p : α → Bool) (l : List α) :
    (l.takeWhile p).length + (l.dropWhile p).length = l.length := by
  rw [← List.length_append, List.takeWhile_append_dropWhile]

theorem take_sub_dropWhile {α : Type} (p : α → Bool) (l : List α) :
    l.take (l.length - (l.dropWhile p).length) = l.takeWhile p := by
  have h1 : (l.takeWhile p).length + (l.dropWhile p).length = l.length :=
    length_split_dropWhile p l
  have h2 : List.take (l.takeWhile p).length (l.takeWhile p ++ l.dropWhile p) =
      l.takeWhile p := List.take_left' rfl
  rw [List.takeWhile_append_dropWhile] at h2
  have h3 : l.length - (l.dropWhile p).length = (l.takeWhile p).length := by omega
  rw [h3, h2]

/-! ### The predecessor scan reaches the first node not below the target -/

theorem scanLoop_suffix (i : Nat) (v : T) (f : Nat) (s : List (Node T)) :
    scanLoop i v f s <:+ s := by
  induction f generalizing s with
  | zero => exact List.suffix_refl s
  | succ f ih =>
    simp only [scanLoop]
    split
    · exact List.suffix_refl s
    · next n rest hdrop =>
      split
      · have hsuf : n :: rest <:+ s := by
          have h0 := List.dropWhile_suffix (l := s) (fun n => decide (n.level < i))
          rwa [hdrop] at h0
        exact (ih rest).trans ((List.suffix_cons n rest).trans hsuf)
      · exact List.suffix_refl s

theorem scanLoop_pairwise {i : Nat} {v : T} {f : Nat} {s : List (Node T)}
    (hs : s.Pairwise nodeLt) : (scanLoop i v f s).Pairwise nodeLt :=
  List.Pairwise.sublist (List.IsSuffix.sublist (scanLoop_suffix i v f s)) hs

theorem scanLoop_dropWhile {i : Nat} {v : T} {f : Nat} {s : List (Node T)}
    (hs : s.Pairwise nodeLt) :
    (scanLoop i v f s).dropWhile (fun n => decide (n.value < v)) =
      s.dropWhile (fun n => decide (n.value < v)) := by
  induction f generalizing s with
  | zero => rfl
  | succ f ih =>
    simp only [scanLoop]
    split
    · rfl
    · next n rest hdrop =>
      split
      · next hv =>
        have hsplit : s.takeWhile (fun n => decide (n.level < i)) ++ n :: rest = s := by
          rw [← hdrop]
          exact List.takeWhile_append_dropWhile _ s
        have hrest : rest.Pairwise nodeLt := by
          have hsuf : n :: rest <:+ s := by
            have h0 := List.dropWhile_suffix (l := s) (fun n => decide (n.level < i))
            rwa [hdrop] at h0
          exact (List.pairwise_cons.mp (List.Pairwise.sublist hsuf.sublist hs)).2
        have hcross : ∀ x ∈ s.takeWhile (fun n => decide (n.level < i)), nodeLt x n := by
          have hp : (s.takeWhile (fun n => decide (n.level < i)) ++ n :: rest).Pairwise
              nodeLt := by rw [hsplit]; exact hs
          intro x hx
          exact (List.pairwise_append.mp hp).2.2 x hx n (List.mem_cons_self n rest)
        have hall : ∀ x ∈ s.takeWhile (fun n => decide (n.level < i)) ++ [n],
            (fun m => decide (m.value < v)) x = true := by
          intro x hx
          rcases List.mem_append.mp hx with hx1 | hx2
          · exact decide_eq_true (lt_trans (hcross x hx1) hv)
          · rcases List.mem_singleton.mp hx2 with rfl
            exact decide_eq_true hv
        have hseq : s.dropWhile (fun m => decide (m.value < v)) =
            rest.dropWhile (fun m => decide (m.value < v)) := by
          conv_lhs => rw [← hsplit]
          rw [show s.takeWhile (fun n => decide (n.level < i)) ++ n :: rest =
            (s.takeWhile (fun n => decide (n.level < i)) ++ [n]) ++ rest by simp]
          exact dropWhile_append_all hall
        rw [ih hrest, hseq]
      · rfl

theorem dropWhile_level_zero (s : List (Node T)) :
    s.dropWhile (fun n => decide (n.level < 0)) = s := by
  cases s with
  | nil => rfl
  | cons n rest => exact List.dropWhile_cons_of_neg (by simp)

theorem scanLoop_zero {v : T} {f : Nat} {s : List (Node T)} (hf : s.length ≤ f) :
    scanLoop 0 v f s = s.dropWhile (fun n => decide (n.value < v)) := by
  induction f generalizing s with
  | zero =>
    have hnil : s = [] := List.length_eq_zero.mp (Nat.le_zero.mp hf)
    subst hnil
    rfl
  | succ f ih =>
    cases s with
    | nil => rfl
    | cons n rest =>
      have hred : scanLoop 0 v (f + 1) (n :: rest) =
          if n.value < v then scanLoop 0 v f rest else n :: rest := by
        simp only [scanLoop, dropWhile_level_zero]
      rw [hred]
      by_cases hv : n.value < v
      · rw [if_pos hv]
        have hdw : List.dropWhile (fun m : Node T => decide (m.value < v)) (n :: rest) =
            List.dropWhile (fun m : Node T => decide (m.value < v)) rest :=
          List.dropWhile_cons_of_pos (by simpa using hv)
        rw [hdw]
        exact ih (by simpa using Nat.succ_le_succ_iff.mp hf)
      · rw [if_neg hv]
        have hdw : List.dropWhile (fun m : Node T => decide (m.value < v)) (n :: rest) =
            n :: rest :=
          List.dropWhile_cons_of_neg (by simpa using hv)
        rw [hdw]

theorem scanLevel_suffix (i : Nat) (v : T) (s : List (Node T)) :
    scanLevel i v s <:+ s :=
  scanLoop_suffix i v s.length s

theorem scanLevel_pairwise {i : Nat} {v : T} {s : List (Node T)}
    (hs : s.Pairwise nodeLt) : (scanLevel i v s).Pairwise nodeLt :=
  scanLoop_pairwise hs

theorem scanFrom_eq {v : T} {s : List (Node T)} (hs : s.Pairwise nodeLt) (k : Nat) :
    scanFrom v s k = s.dropWhile (fun n => decide (n.value < v)) := by
  induction k generalizing s with
  | zero => exact scanLoop_zero (Nat.le_refl _)
  | succ k ih =>
    rw [scanFrom, ih (scanLevel_pairwise hs)]
    exact scanLoop_dropWhile hs

/-- In a sorted state the scan lands exactly at the first level-0 node whose
value is not below the target, whatever current_level is. -/
theorem scan_eq {l : SkipList T} (hs : l.nodes.Pairwise nodeLt) (v : T) :
    scan l v = l.nodes.dropWhile (fun n => decide (n.value < v)) :=
  scanFrom_eq hs l.current_level

/-! ### Membership through the scan result -/

theorem mem_takeWhile_lt {s : List (Node T)} {v : T} {m : Node T}
    (h : m ∈ s.takeWhile (fun n => decide (n.value < v))) : m.value < v := by
  have hpx := List.mem_takeWhile_imp h
  simp only [decide_eq_true_eq] at hpx
  exact hpx

theorem dropWhile_head_not_lt {s : List (Node T)} {v : T} {h : Node T} {t : List (Node T)}
    (hD : s.dropWhile (fun n => decide (n.value < v)) = h :: t) : ¬ h.value < v := by
  have hpf := dropWhile_head_false hD
  simp only [decide_eq_false_iff_not] at hpf
  exact hpf

theorem head_dropWhile_eq_some_iff {s : List (Node T)} (hs : s.Pairwise nodeLt) (v : T) :
    (s.dropWhile (fun n => decide (n.value < v))).head?.map Node.value = some v ↔
      v ∈ s.map Node.value := by
  constructor
  · intro h
    cases hD : (s.dropWhile (fun n => decide (n.value < v))).head? with
    | none => rw [hD] at h; simp at h
    | some m =>
      rw [hD] at h
      simp only [Option.map_some', Option.some.injEq] at h
      have hmem : m ∈ s.dropWhile (fun n => decide (n.value < v)) :=
        List.mem_of_mem_head? (Option.mem_def.mpr hD)
      exact List.mem_map.mpr ⟨m, (List.dropWhile_sublist _).subset hmem, h⟩
  · intro hv
    obtain ⟨m, hm, hmv⟩ := List.mem_map.mp hv
    have hm2 : m ∈ s.takeWhile (fun n => decide (n.value < v)) ++
        s.dropWhile (fun n => decide (n.value < v)) := by
      rw [List.takeWhile_append_dropWhile]
      exact hm
    rcases List.mem_append.mp hm2 with h1 | h2
    · have hlt : m.value < v := mem_takeWhile_lt h1
      rw [hmv] at hlt
      exact absurd hlt (lt_irrefl v)
    · cases hD : s.dropWhile (fun n => decide (n.value < v)) with
      | nil => rw [hD] at h2; simp at h2
      | cons h t =>
        rw [hD] at h2
        have hnlt : ¬ h.value < v := dropWhile_head_not_lt hD
        rcases List.mem_cons.mp h2 with rfl | hmt
        · simp [hmv]
        · have hpair : (h :: t).Pairwise nodeLt := by
            rw [← hD]
            exact List.Pairwise.sublist (List.dropWhile_sublist _) hs
          have hhm : h.value < m.value := (List.pairwise_cons.mp hpair).1 m hmt
          rw [hmv] at hhm
          exact absurd hhm hnlt

theorem dropWhile_mem_struct {s : List (Node T)} (hs : s.Pairwise nodeLt) {v : T}
    (hv : v ∈ s.map Node.value) :
    ∃ h t, s.dropWhile (fun n => decide (n.value < v)) = h :: t ∧ h.value = v := by
  have hhead := (head_dropWhile_eq_some_iff hs v).mpr hv
  cases hD : s.dropWhile (fun n => decide (n.value < v)) with
  | nil => rw [hD] at hhead; simp at hhead
  | cons h t =>
    rw [hD] at hhead
    simp only [List.head?_cons, Option.map_some', Option.some.injEq] at hhead
    exact ⟨h, t, rfl, hhead⟩

/-- contains answers membership of the element sequence, in any sorted
state. -/
theorem contains_iff {l : SkipList T} (hs : l.nodes.Pairwise nodeLt) (v : T) :
    l.contains v = true ↔ v ∈ l.values := by
  simp only [SkipList.contains, scan_eq hs]
  have hval : l.values = l.nodes.map Node.value := rfl
  rw [hval, ← head_dropWhile_eq_some_iff hs v]
  cases hD : (l.nodes.dropWhile (fun n => decide (n.value < v))).head? with
  | none => simp
  | some m => simp

/-! ### The effect of insert and erase on a sorted state -/

theorem insert_of_mem {l : SkipList T} (hs : l.nodes.Pairwise nodeLt) {v : T}
    (hv : v ∈ l.values) (lvl : Nat) : l.insert v lvl = l := by
  have hhead := (head_dropWhile_eq_some_iff hs v).mpr hv
  simp only [SkipList.insert, scan_eq hs]
  rw [if_pos hhead]

theorem insert_not_mem_eq {l : SkipList T} (hs : l.nodes.Pairwise nodeLt) {v : T}
    (hv : v ∉ l.values) (lvl : Nat) :
    l.insert v lvl =
      { nodes := l.nodes.takeWhile (fun n => decide (n.value < v)) ++
          ⟨v, lvl⟩ :: l.nodes.dropWhile (fun n => decide (n.value < v))
        current_level := if lvl > l.current_level then lvl else l.current_level
        num_elements := l.num_elements + 1 } := by
  have hhead : ¬ ((l.nodes.dropWhile (fun n => decide (n.value < v))).head?.map Node.value
      = some v) := fun h => hv ((head_dropWhile_eq_some_iff hs v).mp h)
  simp only [SkipList.insert, scan_eq hs]
  rw [if_neg hhead, take_sub_dropWhile]

theorem erase_not_mem {l : SkipList T} (hs : l.nodes.Pairwise nodeLt) {v : T}
    (hv : v ∉ l.values) : l.erase v = (l, false) := by
  have hhead : ¬ ((l.nodes.dropWhile (fun n => decide (n.value < v))).head?.map Node.value
      = some v) := fun h => hv ((head_dropWhile_eq_some_iff hs v).mp h)
  simp only [SkipList.erase, scan_eq hs]
  rw [if_neg hhead]

theorem erase_mem_eq {l : SkipList T} (hs : l.nodes.Pairwise nodeLt) {v : T}
    (hv : v ∈ l.values) :
    l.erase v =
      ({ nodes := l.nodes.takeWhile (fun n => decide (n.value < v)) ++
            (l.nodes.dropWhile (fun n => decide (n.value < v))).tail
         current_level := shrinkLevel
            (l.nodes.takeWhile (fun n => decide (n.value < v)) ++
              (l.nodes.dropWhile (fun n => decide (n.value < v))).tail) l.current_level
         num_elements := l.num_elements - 1 }, true) := by
  have hhead := (head_dropWhile_eq_some_iff hs v).mpr hv
  simp only [SkipList.erase, scan_eq hs]
  rw [if_pos hhead, take_sub_dropWhile]

/-! ### maxLevel and the shrink loop -/

theorem maxLevel_cons (n : Node T) (rest : List (Node T)) :
    maxLevel (n :: rest) = max n.level (maxLevel rest) := rfl

theorem maxLevel_append (a b : List (Node T)) :
    maxLevel (a ++ b) = max (maxLevel a) (maxLevel b) := by
  induction a with
  | nil => simp [maxLevel]
  | cons n rest ih => simp [maxLevel, ih, Nat.max_assoc]

theorem maxLevel_le_iff {ns : List (Node T)} {k : Nat} :
    maxLevel ns ≤ k ↔ ∀ n ∈ ns, n.level ≤ k := by
  induction ns with
  | nil => simp [maxLevel]
  | cons m rest ih => simp [maxLevel, max_le_iff, ih]

theorem le_maxLevel_of_mem {ns : List (Node T)} {n : Node T} (h : n ∈ ns) :
    n.level ≤ maxLevel ns := by
  induction ns with
  | nil => simp at h
  | cons m rest ih =>
    rcases List.mem_cons.mp h with rfl | hr
    · exact le_max_left _ _
    · exact le_trans (ih hr) (le_max_right _ _)

theorem headNextNull_iff {ns : List (Node T)} {i : Nat} :
    headNextNull ns i = true ↔ ∀ n ∈ ns, n.level < i := by
  simp [headNextNull, List.all_eq_true]

theorem shrinkLevel_eq {ns : List (Node T)} {k : Nat} (h : maxLevel ns ≤ k) :
    shrinkLevel ns k = maxLevel ns := by
  induction k with
  | zero =>
    have h0 : maxLevel ns = 0 := Nat.le_zero.mp h
    simp [shrinkLevel, h0]
  | succ k ih =>
    rw [shrinkLevel]
    by_cases hnull : headNextNull ns (k + 1) = true
    · rw [if_pos hnull]
      refine ih (maxLevel_le_iff.mpr fun n hn => ?_)
      exact Nat.lt_succ_iff.mp (headNextNull_iff.mp hnull n hn)
    · rw [if_neg hnull]
      have hex : ¬ ∀ n ∈ ns, n.level < k + 1 :=
        fun hforall => hnull (headNextNull_iff.mpr hforall)
      push_neg at hex
      obtain ⟨n, hn, hnk⟩ := hex
      have h1 : k + 1 ≤ maxLevel ns := le_trans hnk (le_maxLevel_of_mem hn)
      omega

/-! ### The representation invariant is preserved -/

theorem Inv_emptySkipList : Inv (emptySkipList : SkipList T) :=
  ⟨List.Pairwise.nil, rfl, rfl⟩

theorem dropWhile_gt_of_not_mem {l : SkipList T} (hs : l.nodes.Pairwise nodeLt) {v : T}
    (hv : v ∉ l.values) :
    ∀ x ∈ l.nodes.dropWhile (fun n => decide (n.value < v)), v < x.value := by
  intro x hx
  cases hD : l.nodes.dropWhile (fun n => decide (n.value < v)) with
  | nil => rw [hD] at hx; simp at hx
  | cons h t =>
    rw [hD] at hx
    have hnlt : ¬ h.value < v := dropWhile_head_not_lt hD
    have hne : h.value ≠ v := by
      intro he
      refine hv (List.mem_map.mpr ⟨h, ?_, he⟩)
      have : h ∈ l.nodes.dropWhile (fun n => decide (n.value < v)) := by
        rw [hD]; exact List.mem_cons_self h t
      exact (List.dropWhile_sublist _).subset this
    have hvh : v < h.value := lt_of_le_of_ne (not_lt.mp hnlt) (Ne.symm hne)
    rcases List.mem_cons.mp hx with rfl | hxt
    · exact hvh
    · have hpair : (h :: t).Pairwise nodeLt := by
        rw [← hD]
        exact List.Pairwise.sublist (List.dropWhile_sublist _) hs
      exact lt_trans hvh ((List.pairwise_cons.mp hpair).1 x hxt)

theorem Inv_insert {l : SkipList T} (hInv : Inv l) (v : T) (lvl : Nat) :
    Inv (l.insert v lvl) := by
  obtain ⟨hs, hn, hc⟩ := hInv
  by_cases hv : v ∈ l.values
  · rw [insert_of_mem hs hv lvl]
    exact ⟨hs, hn, hc⟩
  · rw [insert_not_mem_eq hs hv lvl]
    have hsplit : l.nodes.takeWhile (fun n => decide (n.value < v)) ++
        l.nodes.dropWhile (fun n => decide (n.value < v)) = l.nodes :=
      List.takeWhile_append_dropWhile _ _
    have hsOrig : (l.nodes.takeWhile (fun n => decide (n.value < v)) ++
        l.nodes.dropWhile (fun n => decide (n.value < v))).Pairwise nodeLt := by
      rw [hsplit]; exact hs
    obtain ⟨hptW, hpdW, hcross⟩ := List.pairwise_append.mp hsOrig
    have hgt := dropWhile_gt_of_not_mem hs hv
    refine ⟨?_, ?_, ?_⟩
    · refine List.pairwise_append.mpr ⟨hptW, ?_, ?_⟩
      · exact List.pairwise_cons.mpr ⟨fun b hb => hgt b hb, hpdW⟩
      · intro a ha b hb
        rcases List.mem_cons.mp hb with rfl | hbd
        · exact mem_takeWhile_lt ha
        · exact hcross a ha b hbd
    · have hlen := length_split_dropWhile (fun n => decide (n.value < v)) l.nodes
      dsimp only
      simp only [List.length_append, List.length_cons]
      omega
    · dsimp only
      rw [maxLevel_append, maxLevel_cons]
      have hproj : (Node.mk v lvl).level = lvl := rfl
      rw [hproj]
      have hcm : l.current_level =
          max (maxLevel (l.nodes.takeWhile (fun n => decide (n.value < v))))
            (maxLevel (l.nodes.dropWhile (fun n => decide (n.value < v)))) := by
        conv_lhs => rw [hc, ← hsplit]
        rw [maxLevel_append]
      rw [hcm]
      rcases le_or_lt lvl (max (maxLevel (l.nodes.takeWhile (fun n => decide (n.value < v))))
          (maxLevel (l.nodes.dropWhile (fun n => decide (n.value < v))))) with hle | hlt
      · rw [if_neg (not_lt.mpr hle)]
        omega
      · rw [if_pos hlt]
        omega

theorem Inv_erase {l : SkipList T} (hInv : Inv l) (v : T) : Inv (l.erase v).1 := by
  obtain ⟨hs, hn, hc⟩ := hInv
  by_cases hv : v ∈ l.values
  · rw [erase_mem_eq hs hv]
    obtain ⟨h, t, hD, hval⟩ := dropWhile_mem_struct hs (show v ∈ l.nodes.map Node.value from hv)
    have hsplit : l.nodes.takeWhile (fun n => decide (n.value < v)) ++
        l.nodes.dropWhile (fun n => decide (n.value < v)) = l.nodes :=
      List.takeWhile_append_dropWhile _ _
    have hsub : List.Sublist
        (l.nodes.takeWhile (fun n => decide (n.value < v)) ++
          (l.nodes.dropWhile (fun n => decide (n.value < v))).tail) l.nodes := by
      conv_rhs => rw [← hsplit]
      rw [hD, List.tail_cons]
      exact List.Sublist.append_left (List.sublist_cons_self h t) _
    refine ⟨List.Pairwise.sublist hsub hs, ?_, ?_⟩
    · have hlen := length_split_dropWhile (fun n => decide (n.value < v)) l.nodes
      rw [hD] at hlen
      dsimp only
      simp only [hD, List.length_append, List.tail_cons, List.length_cons]
      simp only [List.length_cons] at hlen
      omega
    · dsimp only
      refine shrinkLevel_eq ?_
      rw [hD, List.tail_cons, maxLevel_append, hc]
      conv_rhs => rw [← hsplit, hD]
      rw [maxLevel_append, maxLevel_cons]
      omega
  · rw [erase_not_mem hs hv]
    exact ⟨hs, hn, hc⟩

theorem Inv_applyOp {l : SkipList T} (hInv : Inv l) (op : Op T) : Inv (applyOp l op) := by
  cases op with
  | insert v lvl => exact Inv_insert hInv v lvl
  | erase v => exact Inv_erase hInv v

theorem Inv_foldl {l : SkipList T} (hInv : Inv l) (ops : List (Op T)) :
    Inv (ops.foldl applyOp l) := by
  induction ops generalizing l with
  | nil => exact hInv
  | cons op rest ih => exact ih (Inv_applyOp hInv op)

theorem Inv_run (ops : List (Op T)) : Inv (run ops : SkipList T) :=
  Inv_foldl Inv_emptySkipList ops

theorem Reachable.inv {l : SkipList T} (h : Reachable l) : Inv l := by
  obtain ⟨ops, rfl⟩ := h
  exact Inv_run ops

/-! ### The value sequence across the operations -/

theorem values_pairwise {l : SkipList T} (hs : l.nodes.Pairwise nodeLt) :
    l.values.Pairwise (· < ·) :=
  List.Pairwise.map Node.value (fun _ _ h => h) hs

theorem values_nodup {l : SkipList T} (hs : l.nodes.Pairwise nodeLt) :
    l.values.Nodup :=
  List.Pairwise.imp (fun h => ne_of_lt h) (values_pairwise hs)

theorem values_insert_not_mem {l : SkipList T} (hs : l.nodes.Pairwise nodeLt) {v : T}
    (hv : v ∉ l.values) (lvl : Nat) :
    (l.insert v lvl).values =
      (l.nodes.takeWhile (fun n => decide (n.value < v))).map Node.value ++
        v :: (l.nodes.dropWhile (fun n => decide (n.value < v))).map Node.value := by
  rw [insert_not_mem_eq hs hv lvl]
  simp [SkipList.values]

theorem mem_insert_values {l : SkipList T} (hInv : Inv l) (v x : T) (lvl : Nat) :
    x ∈ (l.insert v lvl).values ↔ x = v ∨ x ∈ l.values := by
  obtain ⟨hs, -, -⟩ := hInv
  by_cases hv : v ∈ l.values
  · rw [insert_of_mem hs hv lvl]
    constructor
    · exact Or.inr
    · rintro (rfl | hx)
      · exact hv
      · exact hx
  · rw [values_insert_not_mem hs hv lvl]
    have hvals : l.values =
        (l.nodes.takeWhile (fun n => decide (n.value < v))).map Node.value ++
          (l.nodes.dropWhile (fun n => decide (n.value < v))).map Node.value := by
      rw [← List.map_append, List.takeWhile_append_dropWhile]
      rfl
    rw [hvals]
    simp only [List.mem_append, List.mem_cons]
    tauto

theorem values_erase_mem {l : SkipList T} (hInv : Inv l) {v : T} (hv : v ∈ l.values) :
    v ∉ (l.erase v).1.values := by
  obtain ⟨hs, hn, hc⟩ := hInv
  obtain ⟨h, t, hD, hval⟩ := dropWhile_mem_struct hs (show v ∈ l.nodes.map Node.value from hv)
  rw [erase_mem_eq hs hv]
  intro hmem
  have hmem2 : v ∈ (l.nodes.takeWhile (fun n => decide (n.value < v))).map Node.value ++
      ((l.nodes.dropWhile (fun n => decide (n.value < v))).tail).map Node.value := by
    simpa [SkipList.values] using hmem
  rcases List.mem_append.mp hmem2 with h1 | h2
  · obtain ⟨a, ha, hav⟩ := List.mem_map.mp h1
    have := mem_takeWhile_lt ha
    rw [hav] at this
    exact absurd this (lt_irrefl v)
  · obtain ⟨b, hb, hbv⟩ := List.mem_map.mp h2
    rw [hD, List.tail_cons] at hb
    have hpdW : (h :: t).Pairwise nodeLt := by
      rw [← hD]
      exact List.Pairwise.sublist (List.dropWhile_sublist _) hs
    have hlt : h.value < b.value := (List.pairwise_cons.mp hpdW).1 b hb
    rw [hval, hbv] at hlt
    exact absurd hlt (lt_irrefl v)

/-- Two strictly sorted lists with the same members are equal. -/
theorem sorted_eq_of_mem_iff {xs ys : List T} (hx : xs.Pairwise (· < ·))
    (hy : ys.Pairwise (· < ·)) (h : ∀ a, a ∈ xs ↔ a ∈ ys) : xs = ys := by
  induction xs generalizing ys with
  | nil =>
    cases ys with
    | nil => rfl
    | cons y ys' => exact absurd ((h y).mpr (List.mem_cons_self y ys')) (List.not_mem_nil y)
  | cons x xs' ih =>
    cases ys with
    | nil => exact absurd ((h x).mp (List.mem_cons_self x xs')) (List.not_mem_nil x)
    | cons y ys' =>
      obtain ⟨hx1, hx2⟩ := List.pairwise_cons.mp hx
      obtain ⟨hy1, hy2⟩ := List.pairwise_cons.mp hy
      have hxy : x = y := by
        rcases List.mem_cons.mp ((h x).mp (List.mem_cons_self x xs')) with h1 | h1
        · exact h1
        rcases List.mem_cons.mp ((h y).mpr (List.mem_cons_self y ys')) with h2 | h2
        · exact h2.symm
        exact absurd (lt_trans (hy1 x h1) (hx1 y h2)) (lt_irrefl _)
      subst hxy
      have htails : ∀ a, a ∈ xs' ↔ a ∈ ys' := by
        intro a
        constructor
        · intro ha
          rcases List.mem_cons.mp ((h a).mp (List.mem_cons_of_mem x ha)) with rfl | h2
          · exact absurd (hx1 a ha) (lt_irrefl a)
          · exact h2
        · intro ha
          rcases List.mem_cons.mp ((h a).mpr (List.mem_cons_of_mem x ha)) with rfl | h2
          · exact absurd (hy1 a ha) (lt_irrefl a)
          · exact h2
      rw [ih hx2 hy2 htails]

/-! ### The comparison walks -/

theorem eqWalk_refl {U : Type} [DecidableEq U] (xs : List U) : eqWalk xs xs = true := by
  induction xs with
  | nil => rfl
  | cons x rest ih => simp [eqWalk, ih]

theorem eqWalk_eq {U : Type} [DecidableEq U] {xs ys : List U} (hlen : xs.length = ys.length)
    (h : eqWalk xs ys = true) : xs = ys := by
  induction xs generalizing ys with
  | nil =>
    cases ys with
    | nil => rfl
    | cons y ys' => simp at hlen
  | cons x xs' ih =>
    cases ys with
    | nil => simp at hlen
    | cons y ys' =>
      simp only [eqWalk] at h
      by_cases hxy : x = y
      · rw [if_pos hxy] at h
        rw [hxy, ih (by simpa using hlen) h]
      · rw [if_neg hxy] at h
        exact absurd h (by simp)

theorem skipListEq_iff {l1 l2 : SkipList T} (h1 : Inv l1) (h2 : Inv l2) :
    skipListEq l1 l2 = true ↔
      l1.num_elements = l2.num_elements ∧ l1.values = l2.values := by
  obtain ⟨-, hn1, -⟩ := h1
  obtain ⟨-, hn2, -⟩ := h2
  constructor
  · intro h
    rw [skipListEq] at h
    by_cases hnum : l1.num_elements = l2.num_elements
    · refine ⟨hnum, ?_⟩
      rw [if_neg (fun hne => hne hnum)] at h
      refine eqWalk_eq ?_ h
      simp only [SkipList.values, List.length_map]
      omega
    · rw [if_pos hnum] at h
      exact absurd h (by simp)
  · rintro ⟨hnum, hvals⟩
    rw [skipListEq, if_neg (fun hne => hne hnum), hvals]
    exact eqWalk_refl _

theorem ltWalk_iff_lex {xs ys : List T} : ltWalk xs ys = true ↔ List.Lex (· < ·) xs ys := by
  induction xs generalizing ys with
  | nil =>
    cases ys with
    | nil =>
      constructor
      · intro h
        simp [ltWalk] at h
      · intro h
        nomatch h
    | cons y ys' => exact iff_of_true rfl List.Lex.nil
  | cons x xs' ih =>
    cases ys with
    | nil =>
      constructor
      · intro h
        simp [ltWalk] at h
      · intro h
        nomatch h
    | cons y ys' =>
      rcases lt_trichotomy x y with hlt | heq | hgt
      · refine iff_of_true ?_ (List.Lex.rel hlt)
        simp [ltWalk, if_pos hlt]
      · subst heq
        have hred : ltWalk (x :: xs') (x :: ys') = ltWalk xs' ys' := by
          simp [ltWalk, if_neg (lt_irrefl x)]
        rw [hred]
        constructor
        · intro h
          exact List.Lex.cons (ih.mp h)
        · intro h
          cases h with
          | cons h' => exact ih.mpr h'
          | rel hr => exact absurd hr (lt_irrefl x)
      · have hred : ltWalk (x :: xs') (y :: ys') = false := by
          simp [ltWalk, if_neg (lt_asymm hgt), if_pos hgt]
        rw [hred]
        constructor
        · intro h
          exact absurd h (by simp)
        · intro h
          exfalso
          cases h with
          | rel hr => exact absurd hgt (lt_asymm hr)
          | cons h' => exact absurd hgt (lt_irrefl _)

/-! ### Insert-only runs -/

theorem Inv_insertsFoldl (vs : List (T × Nat)) :
    ∀ l : SkipList T, Inv l → Inv (vs.foldl (fun l p => l.insert p.1 p.2) l) := by
  induction vs with
  | nil => exact fun l h => h
  | cons p rest ih => exact fun l h => ih _ (Inv_insert h p.1 p.2)

theorem Inv_runInserts (vs : List (T × Nat)) : Inv (runInserts vs : SkipList T) :=
  Inv_insertsFoldl vs emptySkipList Inv_emptySkipList

theorem mem_insertsFoldl (vs : List (T × Nat)) :
    ∀ l : SkipList T, Inv l → ∀ x : T,
      (x ∈ (vs.foldl (fun l p => l.insert p.1 p.2) l).values ↔
        x ∈ l.values ∨ x ∈ vs.map Prod.fst) := by
  induction vs with
  | nil =>
    intro l hInv x
    simp
  | cons p rest ih =>
    intro l hInv x
    rw [List.foldl_cons]
    rw [ih _ (Inv_insert hInv p.1 p.2) x, mem_insert_values hInv p.1 x p.2]
    simp only [List.map_cons, List.mem_cons]
    tauto

theorem mem_runInserts (vs : List (T × Nat)) (x : T) :
    x ∈ (runInserts vs : SkipList T).values ↔ x ∈ vs.map Prod.fst := by
  have h := mem_insertsFoldl vs emptySkipList Inv_emptySkipList x
  simpa [emptySkipList, SkipList.values] using h

theorem runInserts_values_eq {vs1 vs2 : List (T × Nat)}
    (hperm : List.Perm (vs1.map Prod.fst) (vs2.map Prod.fst)) :
    (runInserts vs1 : SkipList T).values = (runInserts vs2).values := by
  refine sorted_eq_of_mem_iff (values_pairwise (Inv_runInserts vs1).1)
    (values_pairwise (Inv_runInserts vs2).1) ?_
  intro a
  rw [mem_runInserts, mem_runInserts]
  exact ⟨fun h => hperm.mem_iff.mp h, fun h => hperm.mem_iff.mpr h⟩

/-! ### Bounds of the level generator -/

theorem grlLoop_ge (dis : Nat → ℚ) (f k level : Nat) : level ≤ grlLoop dis f k level := by
  induction f generalizing k level with
  | zero => exact Nat.le_refl _
  | succ f ih =>
    simp only [grlLoop]
    split
    · exact le_trans (Nat.le_succ level) (ih (k + 1) (level + 1))
    · exact Nat.le_refl _

theorem grlLoop_le (dis : Nat → ℚ) (f k level : Nat) (h : level ≤ MAX_LEVEL) :
    grlLoop dis f k level ≤ MAX_LEVEL := by
  induction f generalizing k level with
  | zero => exact h
  | succ f ih =>
    simp only [grlLoop]
    split
    · next hcond => exact ih (k + 1) (level + 1) hcond.2
    · exact h

theorem get_random_level_base (dis : Nat → ℚ) (h : ¬ dis 0 < 1/4) :
    get_random_level dis = 1 := by
  rw [get_random_level, show MAX_LEVEL = 15 + 1 from rfl]
  simp only [grlLoop]
  rw [if_neg (fun hc => h hc.1)]

/-! ### The claims -/

/-- C1: for every sequence of insert and erase operations applied to an
initially empty SkipList, the sequence of values obtained by following
level-0 links from the head (forward iteration from begin() to end()) is
strictly increasing under the element order, and therefore has no
duplicates. -/
theorem claim1_sorted_no_duplicates (ops : List (Op T)) :
    (run ops).values.Pairwise (· < ·) ∧ (run ops).values.Nodup :=
  ⟨values_pairwise (Inv_run ops).1, values_nodup (Inv_run ops).1⟩

/-- C2: on every reachable state, if v is present then erase v returns
true, afterwards contains v is false and size is exactly one smaller; if v
is absent then erase v returns false and leaves the whole state (size and
element sequence) unchanged. -/
theorem claim2_erase_spec {l : SkipList T} (hreach : Reachable l) (v : T) :
    (v ∈ l.values →
        (l.erase v).2 = true ∧ (l.erase v).1.contains v = false ∧
          l.size = (l.erase v).1.size + 1) ∧
    (v ∉ l.values → (l.erase v).2 = false ∧ (l.erase v).1 = l) := by
  obtain ⟨hs, hn, hc⟩ := hreach.inv
  constructor
  · intro hv
    refine ⟨?_, ?_, ?_⟩
    · rw [erase_mem_eq hs hv]
    · have hInv' : Inv (l.erase v).1 := Inv_erase ⟨hs, hn, hc⟩ v
      have hnot := values_erase_mem ⟨hs, hn, hc⟩ hv
      cases hb : (l.erase v).1.contains v with
      | false => rfl
      | true => exact absurd ((contains_iff hInv'.1 v).mp hb) hnot
    · rw [erase_mem_eq hs hv]
      obtain ⟨m, hm, -⟩ := List.mem_map.mp (show v ∈ l.nodes.map Node.value from hv)
      have hlen : 1 ≤ l.nodes.length :=
        List.length_pos.mpr (fun he => by simp [he] at hm)
      dsimp only
      simp only [SkipList.size]
      omega
  · intro hv
    rw [erase_not_mem hs hv]
    exact ⟨rfl, rfl⟩

/-- Witness for C2, at the reachable one-element state holding 5. -/
theorem claim2_erase_spec_witness :
    (5 ∈ (run [Op.insert 5 1] : SkipList ℕ).values →
        ((run [Op.insert 5 1] : SkipList ℕ).erase 5).2 = true ∧
          ((run [Op.insert 5 1] : SkipList ℕ).erase 5).1.contains 5 = false ∧
          (run [Op.insert 5 1] : SkipList ℕ).size =
            ((run [Op.insert 5 1] : SkipList ℕ).erase 5).1.size + 1) ∧
    (5 ∉ (run [Op.insert 5 1] : SkipList ℕ).values →
        ((run [Op.insert 5 1] : SkipList ℕ).erase 5).2 = false ∧
          ((run [Op.insert 5 1] : SkipList ℕ).erase 5).1 = run [Op.insert 5 1]) :=
  claim2_erase_spec ⟨[Op.insert 5 1], rfl⟩ 5

/-- C3: on every reachable state, contains v is true exactly when some
element equals v; the call computes only a Boolean from the state (the
C++ method is const and performs no mutation). -/
theorem claim3_contains_iff {l : SkipList T} (hreach : Reachable l) (v : T) :
    l.contains v = true ↔ v ∈ l.values :=
  contains_iff hreach.inv.1 v

/-- Witness for C3, at the reachable one-element state holding 3. -/
theorem claim3_contains_iff_witness :
    (run [Op.insert 3 1] : SkipList ℕ).contains 3 = true ↔
      3 ∈ (run [Op.insert 3 1] : SkipList ℕ).values :=
  claim3_contains_iff ⟨[Op.insert 3 1], rfl⟩ 3

/-- C4: on every reachable state, inserting an already-present value is a
no-op leaving the whole state unchanged, and inserting the same value
twice leaves size unchanged after the second insert, whatever levels the
two calls draw. -/
theorem claim4_insert_duplicate {l : SkipList T} (hreach : Reachable l) (v : T)
    (lvl lvl2 : Nat) :
    (v ∈ l.values → l.insert v lvl = l) ∧
      ((l.insert v lvl).insert v lvl2).size = (l.insert v lvl).size := by
  have hInv := hreach.inv
  constructor
  · intro hv
    exact insert_of_mem hInv.1 hv lvl
  · have hmem : v ∈ (l.insert v lvl).values :=
      (mem_insert_values hInv v v lvl).mpr (Or.inl rfl)
    have hInv' : Inv (l.insert v lvl) := Inv_insert hInv v lvl
    rw [insert_of_mem hInv'.1 hmem lvl2]

/-- Witness for C4, inserting 7 twice into the empty list. -/
theorem claim4_insert_duplicate_witness :
    (7 ∈ (run [] : SkipList ℕ).values → (run [] : SkipList ℕ).insert 7 2 = run []) ∧
      (((run [] : SkipList ℕ).insert 7 2).insert 7 3).size =
        ((run [] : SkipList ℕ).insert 7 2).size :=
  claim4_insert_duplicate ⟨[], rfl⟩ 7 2 3

/-- C5: operator== is true exactly when the two lists agree on
num_elements and on the value sequence in iteration order; consequently
inserting the same multiset of values in two different orders into two
fresh instances yields instances that compare equal. -/
theorem claim5_eq_spec {l1 l2 : SkipList T} (h1 : Reachable l1) (h2 : Reachable l2)
    (vs1 vs2 : List (T × Nat)) :
    (skipListEq l1 l2 = true ↔
        l1.num_elements = l2.num_elements ∧ l1.values = l2.values) ∧
    (List.Perm (vs1.map Prod.fst) (vs2.map Prod.fst) →
        skipListEq (runInserts vs1) (runInserts vs2) = true) := by
  refine ⟨skipListEq_iff h1.inv h2.inv, ?_⟩
  intro hperm
  have hvals := runInserts_values_eq hperm
  refine (skipListEq_iff (Inv_runInserts vs1) (Inv_runInserts vs2)).mpr ⟨?_, hvals⟩
  have e1 := (Inv_runInserts (T := T) vs1).2.1
  have e2 := (Inv_runInserts (T := T) vs2).2.1
  have hlen : (runInserts vs1 : SkipList T).values.length =
      (runInserts vs2 : SkipList T).values.length := by rw [hvals]
  simp only [SkipList.values, List.length_map] at hlen
  omega

/-- Witness for C5, with the spec's example sets 30,10,20 and 20,30,10. -/
theorem claim5_eq_spec_witness :
    (skipListEq (run [] : SkipList ℕ) (run []) = true ↔
        (run [] : SkipList ℕ).num_elements = (run [] : SkipList ℕ).num_elements ∧
          (run [] : SkipList ℕ).values = (run [] : SkipList ℕ).values) ∧
    (List.Perm (([(30, 1), (10, 1), (20, 1)] : List (ℕ × Nat)).map Prod.fst)
        (([(20, 1), (30, 1), (10, 1)] : List (ℕ × Nat)).map Prod.fst) →
        skipListEq (runInserts [(30, 1), (10, 1), (20, 1)] : SkipList ℕ)
          (runInserts [(20, 1), (30, 1), (10, 1)]) = true) :=
  claim5_eq_spec ⟨[], rfl⟩ ⟨[], rfl⟩ [(30, 1), (10, 1), (20, 1)] [(20, 1), (30, 1), (10, 1)]

/-- C6: operator< is lexicographic comparison of the ascending value
sequences (first differing pair decides, a strict prefix is less, two
exhausted lists are not-less, which is exactly the Lex relation), and the
other three relational operators are operand swap and/or negation of
operator<. -/
theorem claim6_lt_lex (l1 l2 : SkipList T) :
    (skipListLt l1 l2 = true ↔ List.Lex (· < ·) l1.values l2.values) ∧
      skipListGt l1 l2 = skipListLt l2 l1 ∧
      skipListLe l1 l2 = !(skipListLt l2 l1) ∧
      skipListGe l1 l2 = !(skipListLt l1 l2) :=
  ⟨ltWalk_iff_lex, rfl, rfl, rfl⟩

/-- C7: after every operation sequence, current_level is the maximum level
of a present node, and 0 when the list is empty. -/
theorem claim7_current_level (ops : List (Op T)) :
    (run ops).current_level = maxLevel (run ops).nodes ∧
      ((run ops).nodes = [] → (run ops).current_level = 0) := by
  refine ⟨(Inv_run ops).2.2, ?_⟩
  intro hnil
  rw [(Inv_run ops).2.2, hnil]
  rfl

/-- C8: after move construction or move assignment, the moved-from
instance is a valid empty list (size 0, empty true, fresh head with no
successors) and the destination holds exactly the elements the source
held. -/
theorem claim8_move_spec (l dst : SkipList T) :
    (moveConstruct l).2.size = 0 ∧ (moveConstruct l).2.empty = true ∧
      (moveConstruct l).2.nodes = [] ∧ (moveConstruct l).1.values = l.values ∧
      (moveAssign dst l).2.size = 0 ∧ (moveAssign dst l).2.empty = true ∧
      (moveAssign dst l).2.nodes = [] ∧ (moveAssign dst l).1.values = l.values :=
  ⟨rfl, rfl, rfl, rfl, rfl, rfl, rfl, rfl⟩

/-- C9: across every stream of draws, get_random_level produces a level in
the range 1..MAX_LEVEL with MAX_LEVEL = 16; it starts at 1, adds one level
per draw below 0.25 and is capped at MAX_LEVEL, so when the first draw is
not below 0.25 the result is exactly 1. -/
theorem claim9_get_random_level (dis : Nat → ℚ) :
    1 ≤ get_random_level dis ∧ get_random_level dis ≤ MAX_LEVEL ∧ MAX_LEVEL = 16 ∧
      (¬ dis 0 < 1/4 → get_random_level dis = 1) :=
  ⟨grlLoop_ge dis MAX_LEVEL 0 1, grlLoop_le dis MAX_LEVEL 0 1 (by decide), rfl,
    get_random_level_base dis⟩

/-- C10: incrementing an end (null) iterator, mutable or const, is a
silent no-op that leaves the iterator equal to end(); dereferencing
reports failure (the thrown exception) exactly on the end iterator. -/
theorem claim10_end_iterator (U : Type) :
    iterNext ([] : List (Node U)) = [] ∧ citerNext ([] : List (Node U)) = [] ∧
      iterDeref ([] : List (Node U)) = none ∧ citerDeref ([] : List (Node U)) = none ∧
      (∀ it : List (Node U), it ≠ [] → iterDeref it ≠ none ∧ citerDeref it ≠ none) := by
  refine ⟨rfl, rfl, rfl, rfl, ?_⟩
  intro it hne
  cases it with
  | nil => exact absurd rfl hne
  | cons n rest =>
    refine ⟨fun h => ?_, fun h => ?_⟩
    · simp [iterDeref] at h
    · simp [citerDeref] at h

end SkipListVerif
